import Mathlib

set_option maxRecDepth 10000

/-- Thrown TypeError of the JavaScript runtime: in the source, reading a
property or calling a method of an undefined value (a missing entry of the
params array) throws and aborts the run. -/
inductive JSError
  | typeError
deriving DecidableEq

/-- Addition of JavaScript numbers as the assembler uses them: none models
NaN (or undefined), which propagates through arithmetic. -/
def jsAdd : Option Int → Option Int → Option Int
  | some a, some b => some (a + b)
  | _, _ => none

/-- Multiplication of JavaScript numbers, NaN propagating. -/
def jsMul : Option Int → Option Int → Option Int
  | some a, some b => some (a * b)
  | _, _ => none

/-- The comparison value >= 0 of the source: false when the value is NaN. -/
def jsGe0 : Option Int → Bool
  | some v => decide (0 ≤ v)
  | none => false

/-- Numeric value of a hexadecimal digit character. -/
def hexDigitVal (c : Char) : Option Nat :=
  if ('0' ≤ c ∧ c ≤ '9') then some (c.toNat - Char.toNat '0')
  else if ('a' ≤ c ∧ c ≤ 'f') then some (c.toNat - Char.toNat 'a' + 10)
  else if ('A' ≤ c ∧ c ≤ 'F') then some (c.toNat - Char.toNat 'A' + 10)
  else none

/-- Whether c is a digit of the given radix (the source uses 10 and 16). -/
def isDigitForRadix (radix : Nat) (c : Char) : Bool :=
  match hexDigitVal c with
  | some v => decide (v < radix)
  | none => false

/-- Value of a digit string in the given radix. -/
def digitsToNat (radix : Nat) (ds : List Char) : Nat :=
  ds.foldl (fun acc c => acc * radix + ((hexDigitVal c).getD 0)) 0

/-- Number.parseInt of ECMAScript, restricted to the radices the assembler
uses; radix 0 stands for the undefined radix (base 10 unless the digits
start with 0x). Leading whitespace is skipped, one sign is allowed, the
longest leading run of valid digits is converted, and none (NaN) is
returned when that run is empty. -/
def parseIntJS (radix : Nat) (s : List Char) : Option Int :=
  let s1 := s.dropWhile Char.isWhitespace
  let signAndRest : Int × List Char :=
    match s1 with
    | '-' :: rest => (-1, rest)
    | '+' :: rest => (1, rest)
    | _ => (1, s1)
  let sign := signAndRest.1
  let s2 := signAndRest.2
  let radixAndRest : Nat × List Char :=
    if radix = 16 ∨ radix = 0 then
      match s2 with
      | '0' :: 'x' :: rest => (16, rest)
      | '0' :: 'X' :: rest => (16, rest)
      | _ => (if radix = 0 then 10 else 16, s2)
    else (radix, s2)
  let r := radixAndRest.1
  let s3 := radixAndRest.2
  let digits := s3.takeWhile (isDigitForRadix r)
  if digits.isEmpty then none
  else some (sign * (digitsToNat r digits : Int))

/-- The field record of the source: a bit width and a value; none models a
NaN (or undefined) value, which the source never filters out. -/
structure field where
  bits : Nat
  value : Option Int
deriving DecidableEq

/-- The instruction record of the source: mnemonic and raw operand tokens. -/
structure instruction where
  op : String
  params : List String
deriving DecidableEq

/-- The address record of the source: base register field plus offset. -/
structure address where
  regField : field
  immediateOffset : Option Int
deriving DecidableEq

/-- String.prototype.includes for a single character. -/
def jsIncludes (s : List Char) (c : Char) : Bool := s.contains c

/-- String.prototype.indexOf for a single character: -1 when absent. -/
def jsIndexOf : List Char → Char → Int
  | [], _ => -1
  | c :: rest, t =>
    if c = t then 0
    else
      let r := jsIndexOf rest t
      if r = -1 then -1 else r + 1

/-- String.prototype.substr(start, length) for the nonnegative starts the
source produces; a nonpositive length gives the empty string. -/
def jsSubstr (s : List Char) (start : Int) (len : Int) : List Char :=
  if len ≤ 0 then [] else (s.drop start.toNat).take len.toNat

/-- String.prototype.substr(start) without a length: to the end. -/
def jsSubstrFrom (s : List Char) (start : Int) : List Char :=
  s.drop start.toNat

/-- String.prototype.trim. -/
def jsTrim (s : List Char) : List Char :=
  ((s.dropWhile Char.isWhitespace).reverse.dropWhile Char.isWhitespace).reverse

/-- String.prototype.replace of one literal carriage return with the empty
string: only the first occurrence is replaced. -/
def removeFirstCR : List Char → List Char
  | [] => []
  | c :: rest => if c = '\r' then rest else c :: removeFirstCR rest

/-- String.prototype.split on a comma: the empty string yields one empty
group, exactly as in JavaScript. -/
def splitOnComma : List Char → List (List Char)
  | [] => [[]]
  | c :: rest =>
    if c = ',' then [] :: splitOnComma rest
    else
      match splitOnComma rest with
      | [] => [[c]]
      | g :: gs => (c :: g) :: gs

/-- Source part_000 lines 18-25: parseImmediate parses past a dollar sign
in base 16, otherwise the whole token in base 10. -/
def parseImmediate (str : String) : Option Int :=
  match str.toList with
  | '$' :: rest => parseIntJS 16 rest
  | l => parseIntJS 10 l

/-- Source part_000 lines 49-54: fieldFromRegister drops the first
character of the token and parses the rest with an unspecified radix; the
source performs no validation of the token or of the resulting index. -/
def fieldFromRegister (reg : String) : field :=
  ⟨4, parseIntJS 0 (reg.toList.drop 1)⟩

/-- Source part_000 lines 27-47: parseAddress resolves offset(Rn) into a
base register field and an offset, and a bare token into the no-base
register field 0 plus the token parsed as an immediate. -/
def parseAddress (param : String) : address :=
  let l := param.toList
  if jsIncludes l '(' then
    let immediateOffset := parseImmediate param
    let startIndex := jsIndexOf l '(' + 1
    let stopIndex := jsIndexOf l ')'
    let regField := fieldFromRegister (String.mk (jsSubstr l startIndex (stopIndex - startIndex)))
    ⟨regField, immediateOffset⟩
  else
    ⟨⟨4, some 0⟩, parseImmediate param⟩

/-- Source part_000 lines 56-84: the opcode table; looking up a mnemonic
that is absent yields undefined, modeled none. -/
def OP_TABLE (opcode : String) : Option Int :=
  match opcode with
  | "ld" => some 0
  | "ldi" => some 1
  | "st" => some 2
  | "add" => some 3
  | "sub" => some 4
  | "shr" => some 5
  | "shl" => some 6
  | "ror" => some 7
  | "rol" => some 8
  | "and" => some 9
  | "or" => some 10
  | "addi" => some 11
  | "andi" => some 12
  | "ori" => some 13
  | "mul" => some 14
  | "div" => some 15
  | "neg" => some 16
  | "not" => some 17
  | "brzr" | "brnz" | "brmi" | "brpl" => some 18
  | "jr" => some 19
  | "jal" => some 20
  | "in" => some 21
  | "out" => some 22
  | "mfhi" => some 23
  | "mflo" => some 24
  | "nop" => some 25
  | "halt" => some 26
  | _ => none

/-- Source part_000 lines 86-91: the branch condition sub-code table. -/
def BR_TABLE (opcode : String) : Option Int :=
  match opcode with
  | "brzr" => some 0
  | "brnz" => some 1
  | "brpl" => some 2
  | "brmi" => some 3
  | _ => none

/-- Reading params at an index: a present entry is the string itself; a
missing entry is undefined, and every use the source makes of a params
entry (substr, includes, indexing its characters) throws a TypeError on
undefined, so the miss surfaces as a thrown error at the use site. -/
def getParam (params : List String) (i : Nat) : Except JSError String :=
  match params.get? i with
  | some p => .ok p
  | none => .error JSError.typeError

/-- Source part_000 lines 93-203: assembleInstruction builds the ordered
field list for one instruction, first the 5-bit opcode field, then the
layout of the mnemonic; an unrecognized mnemonic is warned about on the
console and yields the empty list. -/
def assembleInstruction (i : instruction) : Except JSError (List field) :=
  let opField : field := ⟨5, OP_TABLE i.op⟩
  match i.op with
  | "ld" | "ldi" => do
    let p0 ← getParam i.params 0
    let p1 ← getParam i.params 1
    let ra := fieldFromRegister p0
    let a := parseAddress p1
    .ok [opField, ra, a.regField, ⟨19, a.immediateOffset⟩]
  | "st" => do
    let p0 ← getParam i.params 0
    let p1 ← getParam i.params 1
    let storeAddress := parseAddress p0
    let ra := fieldFromRegister p1
    .ok [opField, ra, storeAddress.regField, ⟨19, storeAddress.immediateOffset⟩]
  | "add" | "sub" | "and" | "or" | "shr" | "shl" | "ror" | "rol" => do
    let p0 ← getParam i.params 0
    let p1 ← getParam i.params 1
    let p2 ← getParam i.params 2
    .ok [opField, fieldFromRegister p0, fieldFromRegister p1, fieldFromRegister p2, ⟨15, some 0⟩]
  | "addi" | "andi" | "ori" => do
    let p0 ← getParam i.params 0
    let p1 ← getParam i.params 1
    let p2 ← getParam i.params 2
    .ok [opField, fieldFromRegister p0, fieldFromRegister p1, ⟨19, parseImmediate p2⟩]
  | "mul" | "div" | "neg" | "not" => do
    let p0 ← getParam i.params 0
    let p1 ← getParam i.params 1
    .ok [opField, fieldFromRegister p0, fieldFromRegister p1, ⟨19, some 0⟩]
  | "brmi" | "brpl" | "brzr" | "brnz" => do
    let p0 ← getParam i.params 0
    let p1 ← getParam i.params 1
    .ok [opField, fieldFromRegister p0, ⟨2, BR_TABLE i.op⟩, ⟨2, some 0⟩, ⟨19, parseImmediate p1⟩]
  | "jr" | "jal" | "in" | "out" | "mfhi" | "mflo" => do
    let p0 ← getParam i.params 0
    .ok [opField, fieldFromRegister p0, ⟨23, some 0⟩]
  | "nop" | "halt" => .ok [opField, ⟨27, some 0⟩]
  | _ => .ok []

/-- Source part_000 lines 205-222: parseInstruction strips a label and a
comment, splits off the mnemonic at the first space, and splits the rest
on commas into trimmed operand tokens. -/
def parseInstruction (line : String) : instruction :=
  let l := line.toList
  let startIndex : Int := if jsIncludes l ':' then jsIndexOf l ':' + 1 else 0
  let stopIndex : Int := if jsIncludes l ';' then jsIndexOf l ';' else (l.length : Int)
  let filtered := jsTrim (removeFirstCR (jsSubstr l startIndex (stopIndex - startIndex)))
  let spaceIndex : Int :=
    if jsIndexOf filtered ' ' = -1 then (filtered.length : Int) else jsIndexOf filtered ' '
  let op := String.mk (jsSubstr filtered 0 spaceIndex)
  let right_side := jsTrim (jsSubstrFrom filtered spaceIndex)
  let params := (splitOnComma right_side).map (fun p => String.mk (jsTrim p))
  ⟨op, params⟩

/-- Source part_000 lines 224-241, the loop of bitsToNumber: i is the
running bit offset, num the accumulator; the fields arrive least
significant first, and a negative value is stored as 2 to the width plus
the value. No masking of any kind is applied. -/
def bitsToNumberAux : List field → Nat → Option Int → Option Int
  | [], _, num => num
  | f :: rest, i, num =>
    let unsigned_val : Option Int :=
      if jsGe0 f.value then f.value else jsAdd (some ((2 : Int) ^ f.bits)) f.value
    let shifted_val := jsMul unsigned_val (some ((2 : Int) ^ i))
    bitsToNumberAux rest (i + f.bits) (jsAdd num shifted_val)

/-- Source part_000 lines 224-241: bitsToNumber reverses the descending
field list and accumulates it into a single number. -/
def bitsToNumber (fields_des : List field) : Option Int :=
  bitsToNumberAux fields_des.reverse 0 (some 0)

/-- Source asm374.ts lines 222-225: the bit-width sum that main of
asm374.ts checks against 32 for every assembled instruction. -/
def bitSum (fs : List field) : Nat :=
  fs.foldl (fun acc f => acc + f.bits) 0

/-- Source part_000 lines 253-258, the core of main: map the line parser
over all lines, then map the encoder over all parsed instructions; a
thrown TypeError aborts the whole map (and with it the whole run), which
Except.mapM models by stopping at the first error. -/
def assembleLines (lines : List String) : Except JSError (List (List field)) :=
  (lines.map parseInstruction).mapM assembleInstruction

namespace Asm374

/-- Source asm374.ts lines 18-39: the parseAddress variant of asm374.ts;
it parses all offsets with Number.parseInt and an unspecified radix, so a
dollar-prefixed bare token is read as a decimal digit string. -/
def parseAddress (param : String) : address :=
  let l := param.toList
  if jsIncludes l '(' then
    let immediateOffset := parseIntJS 0 l
    let startIndex := jsIndexOf l '(' + 1
    let stopIndex := jsIndexOf l ')'
    let regField := fieldFromRegister (String.mk (jsSubstr l startIndex (stopIndex - startIndex)))
    ⟨regField, immediateOffset⟩
  else
    let parseFrom := if l.head? = some '$' then l.drop 1 else l
    ⟨⟨4, some 0⟩, parseIntJS 0 parseFrom⟩

/-- Source asm374.ts lines 85-192: the assembleInstruction variant of
asm374.ts. Its store case discards the offset, its immediates are parsed
with an unspecified radix, and its branch case emits a 4-bit padding
field, the 2-bit sub-code and a 19-bit immediate taken from params[0],
for a total of 30 bits. -/
def assembleInstruction (i : instruction) : Except JSError (List field) :=
  let opField : field := ⟨5, OP_TABLE i.op⟩
  match i.op with
  | "ld" | "ldi" => do
    let p0 ← getParam i.params 0
    let p1 ← getParam i.params 1
    let ra := fieldFromRegister p0
    let a := Asm374.parseAddress p1
    .ok [opField, ra, a.regField, ⟨19, a.immediateOffset⟩]
  | "st" => do
    let p0 ← getParam i.params 0
    let p1 ← getParam i.params 1
    let storeAddress := Asm374.parseAddress p0
    let ra := fieldFromRegister p1
    .ok [opField, ra, storeAddress.regField, ⟨19, some 0⟩]
  | "add" | "sub" | "and" | "or" | "shr" | "shl" | "ror" | "rol" => do
    let p0 ← getParam i.params 0
    let p1 ← getParam i.params 1
    let p2 ← getParam i.params 2
    .ok [opField, fieldFromRegister p0, fieldFromRegister p1, fieldFromRegister p2, ⟨15, some 0⟩]
  | "addi" | "andi" | "ori" => do
    let p0 ← getParam i.params 0
    let p1 ← getParam i.params 1
    let p2 ← getParam i.params 2
    .ok [opField, fieldFromRegister p0, fieldFromRegister p1, ⟨19, parseIntJS 0 p2.toList⟩]
  | "mul" | "div" | "neg" | "not" => do
    let p0 ← getParam i.params 0
    let p1 ← getParam i.params 1
    .ok [opField, fieldFromRegister p0, fieldFromRegister p1, ⟨19, some 0⟩]
  | "brmi" | "brpl" | "brzr" | "brnz" => do
    let p0 ← getParam i.params 0
    .ok [opField, ⟨4, some 0⟩, ⟨2, BR_TABLE i.op⟩, ⟨19, parseIntJS 0 p0.toList⟩]
  | "jr" | "jal" | "in" | "out" | "mfhi" | "mflo" => do
    let p0 ← getParam i.params 0
    .ok [opField, fieldFromRegister p0, ⟨23, some 0⟩]
  | "nop" | "halt" => .ok [opField, ⟨27, some 0⟩]
  | _ => .ok []

end Asm374

/-- Modelled from the spec (the packing formula of claim C6): walk the
fields from last to first and accumulate value mod 2 to the width, shifted
left by the running bit offset; NaN propagates as in the code. -/
def specPackAux : List field → Nat → Option Int → Option Int
  | [], _, num => num
  | f :: rest, i, num =>
    let masked := f.value.map (fun v => v % ((2 : Int) ^ f.bits))
    specPackAux rest (i + f.bits) (jsAdd num (jsMul masked (some ((2 : Int) ^ i))))

/-- Modelled from the spec (claim C6): the spec-side packing formula on a
most-significant-first field list. -/
def specPack (fields_des : List field) : Option Int :=
  specPackAux fields_des.reverse 0 (some 0)

/-- A field value that is an actual number fitting its width: the range
-2^w ≤ v < 2^w under which the packing claims are stated. -/
def fieldOK (f : field) : Bool :=
  match f.value with
  | some v => decide (-((2 : Int) ^ f.bits) ≤ v) && decide (v < (2 : Int) ^ f.bits)
  | none => false

/-- Modelled from the spec (claim C7, not present in the source, which has
no decoder): reinterpret a w-bit pattern as a two's-complement integer. -/
def reinterpretTwosComplement (w : Nat) (n : Option Int) : Option Int :=
  n.map (fun m => if m < (2 : Int) ^ (w - 1) then m else m - (2 : Int) ^ w)

/-- The branch layout of part_000 as one field list parameterized by the
condition sub-code: the shared opcode 18, the register field from
params[0], the 2-bit sub-code, 2 reserved zero bits, and the 19-bit
immediate from params[1]. -/
def branchEncode (ps : List String) (sub : Option Int) : Except JSError (List field) := do
  let p0 ← getParam ps 0
  let p1 ← getParam ps 1
  .ok [⟨5, some 18⟩, fieldFromRegister p0, ⟨2, sub⟩, ⟨2, some 0⟩, ⟨19, parseImmediate p1⟩]

/-- Total bit width of a field list, as a plain list sum. -/
def sumBits (fs : List field) : Nat :=
  (fs.map (fun f => f.bits)).sum

theorem bitSum_foldl (fs : List field) (a : Nat) :
    fs.foldl (fun acc f => acc + f.bits) a = a + sumBits fs := by
  induction fs generalizing a with
  | nil => simp [sumBits]
  | cons f rest ih => simp [sumBits, ih]; omega

theorem bitSum_eq_sumBits (fs : List field) : bitSum fs = sumBits fs := by
  simp [bitSum, bitSum_foldl]

theorem except_bind_error {ε α β : Type} (e : ε) (f : α → Except ε β) :
    ((Except.error e : Except ε α) >>= f) = Except.error e := rfl

theorem except_bind_ok {ε α β : Type} (a : α) (f : α → Except ε β) :
    ((Except.ok a : Except ε α) >>= f) = f a := rfl

theorem fieldFromRegister_bits (s : String) : (fieldFromRegister s).bits = 4 := rfl

theorem parseAddress_regField_bits (s : String) :
    (parseAddress s).regField.bits = 4 := by
  simp only [parseAddress]
  split <;> rfl

theorem emod_of_neg_in_range (v m : Int) (h1 : -m ≤ v) (h2 : v < 0) :
    v % m = m + v := by
  have h3 : (v + m) % m = v % m := by
    have h5 := Int.add_mul_emod_self_left (a := v) (b := m) (c := 1)
    rw [mul_one] at h5
    exact h5
  have h4 : (v + m) % m = v + m := Int.emod_eq_of_lt (by omega) (by omega)
  omega

theorem bitsToNumberAux_eq_specPackAux (l : List field) :
    (∀ f ∈ l, fieldOK f = true) →
    ∀ (i : Nat) (num : Option Int), bitsToNumberAux l i num = specPackAux l i num := by
  induction l with
  | nil => intro _ i num; rfl
  | cons f rest ih =>
    intro h i num
    have hf : fieldOK f = true := h f (List.mem_cons_self f rest)
    have hrest : ∀ g ∈ rest, fieldOK g = true := fun g hg => h g (List.mem_cons_of_mem f hg)
    obtain ⟨b, val⟩ := f
    cases val with
    | none => simp [fieldOK] at hf
    | some v =>
      simp only [fieldOK, Bool.and_eq_true, decide_eq_true_eq] at hf
      obtain ⟨hlow, hhigh⟩ := hf
      have hu : (if jsGe0 (some v) then some v
            else jsAdd (some ((2 : Int) ^ b)) (some v)) =
          (some v).map (fun w => w % ((2 : Int) ^ b)) := by
        by_cases h0 : 0 ≤ v
        · simp [jsGe0, h0, Int.emod_eq_of_lt h0 hhigh]
        · have hneg : v % ((2 : Int) ^ b) = (2 : Int) ^ b + v :=
            emod_of_neg_in_range v ((2 : Int) ^ b) (by omega) (by omega)
          simp [jsGe0, h0, jsAdd, hneg]
      have step1 : bitsToNumberAux (⟨b, some v⟩ :: rest) i num =
          bitsToNumberAux rest (i + b)
            (jsAdd num (jsMul (if jsGe0 (some v) then some v
              else jsAdd (some ((2 : Int) ^ b)) (some v)) (some ((2 : Int) ^ i)))) := rfl
      have step2 : specPackAux (⟨b, some v⟩ :: rest) i num =
          specPackAux rest (i + b)
            (jsAdd num (jsMul ((some v).map (fun w => w % ((2 : Int) ^ b)))
              (some ((2 : Int) ^ i)))) := rfl
      rw [step1, step2, hu]
      exact ih hrest _ _

theorem bitsToNumberAux_bound (l : List field) :
    (∀ f ∈ l, fieldOK f = true) →
    ∀ (i : Nat) (n : Int), 0 ≤ n → n < (2 : Int) ^ i →
    ∃ m : Int, bitsToNumberAux l i (some n) = some m ∧ 0 ≤ m ∧
      m < (2 : Int) ^ (i + sumBits l) := by
  induction l with
  | nil =>
    intro _ i n h0 hi
    refine ⟨n, rfl, h0, ?_⟩
    simp only [sumBits, List.map_nil, List.sum_nil, Nat.add_zero]
    exact hi
  | cons f rest ih =>
    intro h i n h0 hi
    have hf : fieldOK f = true := h f (List.mem_cons_self f rest)
    have hrest : ∀ g ∈ rest, fieldOK g = true := fun g hg => h g (List.mem_cons_of_mem f hg)
    obtain ⟨b, val⟩ := f
    cases val with
    | none => simp [fieldOK] at hf
    | some v =>
      simp only [fieldOK, Bool.and_eq_true, decide_eq_true_eq] at hf
      obtain ⟨hlow, hhigh⟩ := hf
      have hu : ∃ u : Int, (if jsGe0 (some v) then some v
            else jsAdd (some ((2 : Int) ^ b)) (some v)) = some u ∧
          0 ≤ u ∧ u < (2 : Int) ^ b := by
        by_cases h0v : 0 ≤ v
        · exact ⟨v, by simp [jsGe0, h0v], h0v, hhigh⟩
        · refine ⟨(2 : Int) ^ b + v, by simp [jsGe0, h0v, jsAdd], by omega, by omega⟩
      obtain ⟨u, hu_eq, hu0, hub⟩ := hu
      have step : bitsToNumberAux (⟨b, some v⟩ :: rest) i (some n) =
          bitsToNumberAux rest (i + b)
            (jsAdd (some n) (jsMul (if jsGe0 (some v) then some v
              else jsAdd (some ((2 : Int) ^ b)) (some v)) (some ((2 : Int) ^ i)))) := rfl
      rw [step, hu_eq]
      have hacc : jsAdd (some n) (jsMul (some u) (some ((2 : Int) ^ i))) =
          some (n + u * (2 : Int) ^ i) := rfl
      rw [hacc]
      have hpow : (0 : Int) < (2 : Int) ^ i := by positivity
      have hn0 : 0 ≤ n + u * (2 : Int) ^ i := by
        have := mul_nonneg hu0 (le_of_lt hpow)
        omega
      have hnb : n + u * (2 : Int) ^ i < (2 : Int) ^ (i + b) := by
        have h1 : u ≤ (2 : Int) ^ b - 1 := by omega
        have h2 : u * (2 : Int) ^ i ≤ ((2 : Int) ^ b - 1) * (2 : Int) ^ i :=
          mul_le_mul_of_nonneg_right h1 (le_of_lt hpow)
        have h4 : (2 : Int) ^ i + ((2 : Int) ^ b - 1) * (2 : Int) ^ i =
            (2 : Int) ^ (i + b) := by rw [pow_add]; ring
        nlinarith
      obtain ⟨m, hm_eq, hm0, hmb⟩ := ih hrest (i + b) (n + u * (2 : Int) ^ i) hn0 hnb
      refine ⟨m, hm_eq, hm0, ?_⟩
      have hexp : i + b + sumBits rest = i + sumBits (⟨b, some v⟩ :: rest) := by
        simp [sumBits]; omega
      rwa [hexp] at hmb

/-- Claim C1: encoding the line ldi R3, $87 produces the 32-bit word
opcode(1) shifted by 27 plus 3 shifted by 23 plus 0 shifted by 19 plus the
19-bit immediate 135 (hex 87): the parsed line yields mnemonic ldi with
operands R3 and $87, the encoder emits the fields 5:1, 4:3, 4:0, 19:135,
and packing them gives exactly that word. -/
theorem ldi_end_to_end :
    parseInstruction ("ldi R3, $87") = ⟨"ldi", ["R3", "$87"]⟩ ∧
    assembleInstruction ⟨"ldi", ["R3", "$87"]⟩ =
      .ok [⟨5, some 1⟩, ⟨4, some 3⟩, ⟨4, some 0⟩, ⟨19, some 135⟩] ∧
    bitsToNumber [⟨5, some 1⟩, ⟨4, some 3⟩, ⟨4, some 0⟩, ⟨19, some 135⟩] =
      some (1 * 2 ^ 27 + 3 * 2 ^ 23 + 0 * 2 ^ 19 + 135) :=
  ⟨by decide, rfl, by decide⟩

/-- Claim C2, the code evaluated at the failing input: on the branch line
brmi R3, 3 the assembleInstruction of asm374.ts emits fields of widths
5 + 4 + 2 + 19 = 30, not 32, so the bitSum check of its own main reports
wrong number of bits; the assembleInstruction of part_000 emits 32 bits
for the same line. -/
theorem asm374_branch_width_defect :
    Asm374.assembleInstruction ⟨"brmi", ["R3", "3"]⟩ =
      .ok [⟨5, some 18⟩, ⟨4, some 0⟩, ⟨2, some 3⟩, ⟨19, none⟩] ∧
    bitSum [(⟨5, some 18⟩ : field), ⟨4, some 0⟩, ⟨2, some 3⟩, ⟨19, none⟩] = 30 ∧
    assembleInstruction ⟨"brmi", ["R3", "3"]⟩ =
      .ok [⟨5, some 18⟩, ⟨4, some 3⟩, ⟨2, some 3⟩, ⟨2, some 0⟩, ⟨19, some 3⟩] ∧
    bitSum [(⟨5, some 18⟩ : field), ⟨4, some 3⟩, ⟨2, some 3⟩, ⟨2, some 0⟩, ⟨19, some 3⟩] = 32 :=
  ⟨rfl, by decide, rfl, by decide⟩

/-- Claim C3: encoding brmi R3, 3 emits, after the shared branch opcode 18,
the 4-bit register field 3, then the 2-bit condition sub-code 3, then 2
reserved zero bits, then the 19-bit immediate 3; and each of the four
branch mnemonics maps to opcode 18 and encodes, on any operand list, to
the common branch layout differing only in its sub-code from BR_TABLE. -/
theorem branch_layout :
    assembleInstruction ⟨"brmi", ["R3", "3"]⟩ =
      .ok [⟨5, some 18⟩, ⟨4, some 3⟩, ⟨2, some 3⟩, ⟨2, some 0⟩, ⟨19, some 3⟩] ∧
    ∀ m ∈ (["brzr", "brnz", "brpl", "brmi"] : List String),
      OP_TABLE m = some 18 ∧
      ∀ ps : List String, assembleInstruction ⟨m, ps⟩ = branchEncode ps (BR_TABLE m) := by
  refine ⟨rfl, ?_⟩
  intro m hm
  fin_cases hm <;> exact ⟨rfl, fun ps => rfl⟩

/-- Witness for claim C3: the branch layout theorem applied to brzr with a
concrete operand list. -/
theorem branch_layout_witness :
    OP_TABLE ("brzr") = some 18 ∧
    assembleInstruction ⟨"brzr", ["R1", "5"]⟩ = branchEncode ["R1", "5"] (BR_TABLE ("brzr")) :=
  ⟨(branch_layout.2 ("brzr") (by decide)).1,
   (branch_layout.2 ("brzr") (by decide)).2 ["R1", "5"]⟩

/-- Counterexample to claim C4: on the out-of-range token R20 the register
resolver does not raise any error; it returns an ordinary 4-bit field
carrying the out-of-range value 20, and on the malformed token Rx it
returns a field whose value is NaN, again without raising. -/
theorem fieldFromRegister_accepts_out_of_range :
    fieldFromRegister ("R20") = ⟨4, some 20⟩ ∧ fieldFromRegister ("Rx") = ⟨4, none⟩ := by
  decide

/-- Claim C4 (amended): for digits denoting an index r in 0..15 the
resolver returns a field of width 4 and value r; for any other token it
still returns a width-4 field rather than raising: an out-of-range index
is passed through unmasked (R20 gives value 20) and a non-numeric
remainder gives a NaN value (Rx). -/
theorem fieldFromRegister_spec :
    (∀ r : Nat, r < 16 → fieldFromRegister ("R" ++ toString r) = ⟨4, some (r : Int)⟩) ∧
    fieldFromRegister ("R20") = ⟨4, some 20⟩ ∧
    fieldFromRegister ("Rx") = ⟨4, none⟩ :=
  ⟨by decide, by decide, by decide⟩

/-- Witness for claim C4: the amended register theorem applied at index 3. -/
theorem fieldFromRegister_spec_witness :
    3 < 16 ∧ fieldFromRegister ("R3") = ⟨4, some 3⟩ :=
  ⟨by decide, fieldFromRegister_spec.1 3 (by decide)⟩

/-- Claim C5: the address resolver maps 4(R2) to base register field 2 of
width 4 with immediate offset 4, and maps the bare token $75 to the
no-base register field 0 of width 4 with immediate offset 117. -/
theorem parseAddress_examples :
    parseAddress ("4(R2)") = ⟨⟨4, some 2⟩, some 4⟩ ∧
    parseAddress ("$75") = ⟨⟨4, some 0⟩, some 117⟩ := by
  decide

/-- Counterexample to claim C6: the packing function applies no per-field
masking, so on the single out-of-range field of width 4 and value 20 it
returns 20 while the claimed mod-2-to-the-width formula returns 4. -/
theorem bitsToNumber_unmasked_cex :
    bitsToNumber [⟨4, some 20⟩] = some 20 ∧
    specPack [⟨4, some 20⟩] = some 4 ∧
    bitsToNumber [⟨4, some 20⟩] ≠ specPack [⟨4, some 20⟩] := by
  decide

/-- Claim C6 (amended): for every field sequence in which each field value
v of width w satisfies -2^w ≤ v < 2^w, the packing function returns the
sum over the fields of value mod 2 to the width, shifted left by the
running bit offset, walking fields from last to first, so a negative value
v of width w is stored as 2^w + v and the first (opcode) field lands at
the most significant end. -/
theorem bitsToNumber_eq_specPack (fs : List field) (h : ∀ f ∈ fs, fieldOK f = true) :
    bitsToNumber fs = specPack fs :=
  bitsToNumberAux_eq_specPackAux fs.reverse
    (fun f hf => h f (List.mem_reverse.mp hf)) 0 (some 0)

/-- Witness for claim C6: the amended packing theorem applied to a concrete
field list holding a negative value. -/
theorem bitsToNumber_eq_specPack_witness :
    (∀ f ∈ [(⟨5, some 1⟩ : field), ⟨4, some (-3)⟩], fieldOK f = true) ∧
    bitsToNumber [(⟨5, some 1⟩ : field), ⟨4, some (-3)⟩] =
      specPack [(⟨5, some 1⟩ : field), ⟨4, some (-3)⟩] :=
  ⟨by decide, bitsToNumber_eq_specPack [(⟨5, some 1⟩ : field), ⟨4, some (-3)⟩] (by decide)⟩

/-- Claim C7: for every integer v with -2^18 ≤ v < 2^18, packing v into a
19-bit field and reinterpreting the resulting 19-bit pattern as a
two's-complement integer yields v back. -/
theorem nineteen_bit_roundtrip (v : Int) (h1 : -(2 : Int) ^ 18 ≤ v) (h2 : v < (2 : Int) ^ 18) :
    reinterpretTwosComplement 19 (bitsToNumber [⟨19, some v⟩]) = some v := by
  have hstep : bitsToNumber [⟨19, some v⟩] =
      jsAdd (some 0) (jsMul (if jsGe0 (some v) then some v
        else jsAdd (some ((2 : Int) ^ 19)) (some v)) (some ((2 : Int) ^ 0))) := rfl
  norm_num at h1 h2
  by_cases h0 : 0 ≤ v
  · have hg : jsGe0 (some v) = true := by simp [jsGe0, h0]
    have hval : bitsToNumber [⟨19, some v⟩] = some v := by
      rw [hstep, hg]
      simp [jsAdd, jsMul]
    rw [hval]
    show some (if v < (2 : Int) ^ (19 - 1) then v else v - 2 ^ 19) = some v
    have hlt : v < (2 : Int) ^ (19 - 1) := by norm_num; omega
    rw [if_pos hlt]
  · have hg : jsGe0 (some v) = false := by simp [jsGe0]; omega
    have hval : bitsToNumber [⟨19, some v⟩] = some ((2 : Int) ^ 19 + v) := by
      rw [hstep, hg]
      simp [jsAdd, jsMul]
    rw [hval]
    show some (if (2 : Int) ^ 19 + v < (2 : Int) ^ (19 - 1) then (2 : Int) ^ 19 + v
      else (2 : Int) ^ 19 + v - 2 ^ 19) = some v
    have hge : ¬ ((2 : Int) ^ 19 + v < (2 : Int) ^ (19 - 1)) := by norm_num; omega
    rw [if_neg hge]
    have hv : (2 : Int) ^ 19 + v - 2 ^ 19 = v := by ring
    rw [hv]

/-- Witness for claim C7: the round-trip theorem applied at v = -5. -/
theorem nineteen_bit_roundtrip_witness :
    (-(2 : Int) ^ 18 ≤ -5) ∧ ((-5 : Int) < (2 : Int) ^ 18) ∧
    reinterpretTwosComplement 19 (bitsToNumber [⟨19, some (-5)⟩]) = some (-5) :=
  ⟨by norm_num, by norm_num, nineteen_bit_roundtrip (-5) (by norm_num) (by norm_num)⟩

/-- Counterexample to claim C8: the token $1G is dollar-prefixed and its
remainder 1G contains the non-hex character G, yet the immediate resolver
produces the value 1 (the longest leading hex run) instead of raising any
error. -/
theorem parseImmediate_no_error_cex :
    parseImmediate ("$1G") = some 1 := by decide

/-- Claim C8 (amended): $FF parses to 255 and -2 parses to -2; a
dollar-prefixed token whose remainder contains non-hex characters never
raises: it yields the value of the longest leading run of hex digits
($1G gives 1), or NaN when that run is empty ($G gives none). -/
theorem parseImmediate_spec :
    parseImmediate ("$FF") = some 255 ∧ parseImmediate ("-2") = some (-2) ∧
    parseImmediate ("$1G") = some 1 ∧ parseImmediate ("$G") = none := by
  decide

/-- Counterexample to claim C9: on the input lines ldi R3 (a missing
operand) followed by nop, the pipeline of main aborts with a thrown
TypeError, so the nop line is never encoded even though it encodes fine on
its own. -/
theorem missing_operand_aborts_cex :
    assembleLines ["ldi R3", "nop"] = .error JSError.typeError ∧
    assembleInstruction (parseInstruction ("nop")) = .ok [⟨5, some 25⟩, ⟨27, some 0⟩] :=
  ⟨rfl, rfl⟩

/-- Claim C9 (amended): a table-lookup failure (unknown mnemonic) is
reported as a console warning and does not abort the remaining lines,
which continue to be encoded while the failing line packs to the empty
field list; but a missing operand throws an uncaught TypeError that aborts
the whole run, so no remaining line is encoded. -/
theorem batch_error_behavior :
    assembleLines ["bogus 1", "nop"] = .ok [[], [⟨5, some 25⟩, ⟨27, some 0⟩]] ∧
    assembleLines ["ldi R3", "nop"] = .error JSError.typeError :=
  ⟨rfl, rfl⟩

/-- Claim C10: for every field sequence whose widths sum to 32 and whose
every value v of width w satisfies -2^w ≤ v < 2^w, the packing function
returns an integer in the interval from 0 inclusive to 2^32 exclusive;
and since no per-field masking is applied, the bound indeed needs the
precondition: a width-5 field holding 40 drives the packed word past
2^32. -/
theorem bitsToNumber_in_range :
    (∀ fs : List field, bitSum fs = 32 → (∀ f ∈ fs, fieldOK f = true) →
      ∃ n : Int, bitsToNumber fs = some n ∧ 0 ≤ n ∧ n < (2 : Int) ^ 32) ∧
    (bitSum [(⟨5, some 40⟩ : field), ⟨27, some 0⟩] = 32 ∧
      bitsToNumber [(⟨5, some 40⟩ : field), ⟨27, some 0⟩] = some (40 * 2 ^ 27) ∧
      ¬ ((40 * 2 ^ 27 : Int) < (2 : Int) ^ 32)) := by
  constructor
  · intro fs h32 hok
    have hrev : ∀ f ∈ fs.reverse, fieldOK f = true :=
      fun f hf => hok f (List.mem_reverse.mp hf)
    obtain ⟨m, hm, h0, hb⟩ :=
      bitsToNumberAux_bound fs.reverse hrev 0 0 le_rfl (by norm_num)
    refine ⟨m, hm, h0, ?_⟩
    have h32s : sumBits fs = 32 := by rw [← bitSum_eq_sumBits]; exact h32
    have hexp : (0 : Nat) + sumBits fs.reverse = 32 := by
      simp only [sumBits, List.map_reverse, List.sum_reverse, Nat.zero_add]
      exact h32s
    rwa [hexp] at hb
  · exact ⟨by decide, by decide, by decide⟩

/-- Witness for claim C10: the range theorem applied to the concrete field
list of the ldi R3, $87 instruction. -/
theorem bitsToNumber_in_range_witness :
    bitSum [(⟨5, some 1⟩ : field), ⟨4, some 3⟩, ⟨4, some 0⟩, ⟨19, some 135⟩] = 32 ∧
    (∃ n : Int, bitsToNumber [(⟨5, some 1⟩ : field), ⟨4, some 3⟩, ⟨4, some 0⟩, ⟨19, some 135⟩] =
      some n ∧ 0 ≤ n ∧ n < (2 : Int) ^ 32) :=
  ⟨by decide,
   bitsToNumber_in_range.1 [(⟨5, some 1⟩ : field), ⟨4, some 3⟩, ⟨4, some 0⟩, ⟨19, some 135⟩]
     (by decide) (by decide)⟩

theorem except_bind_eq_ok {ε α β : Type} {x : Except ε α} {f : α → Except ε β} {b : β}
    (h : (x >>= f) = .ok b) : ∃ a, x = .ok a ∧ f a = .ok b := by
  cases x with
  | error e => exact Except.noConfusion h
  | ok a => exact ⟨a, rfl, h⟩

/-- Supporting invariant: whenever the encoder of part_000 succeeds on a
known mnemonic (a nonempty field list), the emitted widths sum to exactly
32 bits, for every one of the nine layouts. -/
theorem assembleInstruction_ok_bitSum (i : instruction) (fs : List field)
    (h : assembleInstruction i = .ok fs) (hne : fs ≠ []) : bitSum fs = 32 := by
  unfold assembleInstruction at h
  split at h
  all_goals (
    try (obtain ⟨p0, hp0, h⟩ := except_bind_eq_ok h)
    try (obtain ⟨p1, hp1, h⟩ := except_bind_eq_ok h)
    try (obtain ⟨p2, hp2, h⟩ := except_bind_eq_ok h)
    injection h with h
    subst h
    first
      | exact absurd rfl hne
      | simp [bitSum, fieldFromRegister, parseAddress_regField_bits])
